import Mathlib

/-!
Shallow embedding of `src/optimizers.py` (gradient ascent and three MCMC
samplers sharing an accept/reject retry loop), together with theorems
checking the specification's claims against it.

Modelling conventions:
* a numpy vector is a `List ℝ`; elementwise arithmetic is `zipWith`/`map`;
* the oracle is a pure function `Vec → ℝ × Vec` returning `(log_value, gradient)`;
* every external random draw is an explicit input: a sampled candidate or
  momentum vector `z`/`p0` and a uniform threshold `th` per retry attempt;
  an `update()` call receives the finite list of per-attempt draws it
  consumes, and returns `none` when that list is exhausted before an
  acceptance (the Python loop would still be running);
* float arithmetic is idealised as real arithmetic.
-/

noncomputable section

namespace Optimizers

/-- A point, gradient or momentum vector (a numpy 1-d array). -/
abbrev Vec := List ℝ

/-- What the oracle returns: `(log_value, gradient)`, the Python pair
`oracle(x) = (value, grad)`. -/
abbrev OracleResult := ℝ × Vec

/-- The external oracle capability. -/
abbrev Oracle := Vec → OracleResult

/-- Elementwise sum of two vectors (numpy `a + b`). -/
def vadd (a b : Vec) : Vec := List.zipWith (fun x y => x + y) a b

/-- Elementwise difference of two vectors (numpy `a - b`). -/
def vsub (a b : Vec) : Vec := List.zipWith (fun x y => x - y) a b

/-- Scalar times vector (numpy `c * v`). -/
def smul (c : ℝ) (v : Vec) : Vec := v.map (fun x => c * x)

/-- Vector divided elementwise by a scalar (numpy `v / c`). -/
def sdiv (v : Vec) (c : ℝ) : Vec := v.map (fun x => x / c)

/-- `np.sum(v ** 2)`. -/
def sumSq (v : Vec) : ℝ := (v.map (fun x => x ^ 2)).sum

/-- State of the `GradientAccent` class (the source's spelling): oracle,
learning rate `lr`, step counter and current point. -/
structure GradientAccent where
  oracle : Oracle
  lr : ℝ
  number_of_steps : ℕ
  current : Vec

/-- `GradientAccent.__init__` followed by `initialize(start)`: the step
counter starts at 0 and `current` is the supplied starting point. -/
def GradientAccent.make (oracle : Oracle) (lr : ℝ) (start : Vec) : GradientAccent :=
  { oracle := oracle, lr := lr, number_of_steps := 0, current := start }

/-- `GradientAccent.update`: evaluate the oracle at `current`, move
`current` by `lr * grad`, bump the step counter, return the log-value
that was computed before the move. -/
def GradientAccent.update (s : GradientAccent) : GradientAccent × ℝ :=
  let value := (s.oracle s.current).1
  let grad := (s.oracle s.current).2
  ({ s with
      current := vadd s.current (smul s.lr grad),
      number_of_steps := s.number_of_steps + 1 }, value)

/-- State shared by `MetropolisHastingsMCMC` and its subclass
`LangevinMCMC`: oracle, `lr`, `lr_decay`, step counter, current point and
the oracle result cached for it. -/
structure MetropolisHastingsMCMC where
  oracle : Oracle
  lr : ℝ
  lr_decay : ℝ
  number_of_steps : ℕ
  current : Vec
  current_value : OracleResult

/-- `MetropolisHastingsMCMC.__init__` followed by `initialize(start)`:
step counter 0, `current = start`, `current_value = oracle(start)`. -/
def MetropolisHastingsMCMC.make (oracle : Oracle) (lr lr_decay : ℝ) (start : Vec) :
    MetropolisHastingsMCMC :=
  { oracle := oracle, lr := lr, lr_decay := lr_decay, number_of_steps := 0,
    current := start, current_value := oracle start }

/-- `MetropolisHastingsMCMC.transition`: a draw from
`multivariate_normal(mean=current, cov=lr)`, with the external standard
normal draw `z` made explicit — the sampled candidate is
`current + sqrt(lr) * z`. -/
def MetropolisHastingsMCMC.transition (s : MetropolisHastingsMCMC) (z : Vec) : Vec :=
  vadd s.current (smul (Real.sqrt s.lr) z)

/-- `MetropolisHastingsMCMC.compute_alpha`:
`min(1, exp(new_value[0] - current_value[0]))`.  The candidate point `w`
itself is unused, as in the source. -/
def MetropolisHastingsMCMC.compute_alpha (s : MetropolisHastingsMCMC)
    (w : Vec) (w_value : OracleResult) : ℝ :=
  let symmetric_part := Real.exp (w_value.1 - s.current_value.1)
  min 1 symmetric_part

/-- Per-attempt randomness of the Metropolis-Hastings / Langevin retry
loop: the proposal noise draw and the uniform(0,1) threshold. -/
abbrev Rand := Vec × ℝ

/-- One iteration of the `while not accepted` body of
`MetropolisHastingsMCMC.update`, parameterised by the (virtually
dispatched) `transition` method `T` and `compute_alpha` method `A`:
propose, evaluate the oracle, compute `alpha`, decay the working `lr`,
then compare `alpha > th`; the step counter is bumped on every attempt.
Returns the mutated state together with the `accepted` flag. -/
def mcmcAttempt (T : MetropolisHastingsMCMC → Vec → Vec)
    (A : MetropolisHastingsMCMC → Vec → OracleResult → ℝ)
    (s : MetropolisHastingsMCMC) (z : Vec) (th : ℝ) :
    MetropolisHastingsMCMC × Bool :=
  let w := T s z
  let w_value := s.oracle w
  let alpha := A s w w_value
  let s1 : MetropolisHastingsMCMC :=
    { s with lr := s.lr * s.lr_decay, number_of_steps := s.number_of_steps + 1 }
  if alpha > th then ({ s1 with current := w, current_value := w_value }, true)
  else (s1, false)

/-- The `while not accepted` loop of `MetropolisHastingsMCMC.update`, fed
by the finite list of per-attempt random draws; `none` means the supplied
draws ran out before an acceptance. -/
def mcmcUpdateLoop (T : MetropolisHastingsMCMC → Vec → Vec)
    (A : MetropolisHastingsMCMC → Vec → OracleResult → ℝ) :
    MetropolisHastingsMCMC → List Rand → Option MetropolisHastingsMCMC
  | _, [] => none
  | s, r :: rest =>
    let a := mcmcAttempt T A s r.1 r.2
    if a.2 then some a.1 else mcmcUpdateLoop T A a.1 rest

/-- `MetropolisHastingsMCMC.update` (shared by `LangevinMCMC`): save
`old_lr`, run the retry loop, restore `lr`, return the committed
log-value alongside the final state. -/
def mcmcUpdate (T : MetropolisHastingsMCMC → Vec → Vec)
    (A : MetropolisHastingsMCMC → Vec → OracleResult → ℝ)
    (s : MetropolisHastingsMCMC) (rands : List Rand) :
    Option (MetropolisHastingsMCMC × ℝ) :=
  let old_lr := s.lr
  match mcmcUpdateLoop T A s rands with
  | none => none
  | some s1 => some ({ s1 with lr := old_lr }, s1.current_value.1)

/-- `update` with `MetropolisHastingsMCMC`'s own methods. -/
def MetropolisHastingsMCMC.update (s : MetropolisHastingsMCMC) (rands : List Rand) :
    Option (MetropolisHastingsMCMC × ℝ) :=
  mcmcUpdate MetropolisHastingsMCMC.transition MetropolisHastingsMCMC.compute_alpha s rands

/-- `LangevinMCMC.transition`: with the external standard normal draw
`noise` explicit, the candidate is
`current + lr * current_value[1] + sqrt(2 * lr) * noise`. -/
def LangevinMCMC.transition (s : MetropolisHastingsMCMC) (noise : Vec) : Vec :=
  vadd (vadd s.current (smul s.lr s.current_value.2)) (smul (Real.sqrt (2 * s.lr)) noise)

/-- `LangevinMCMC.proposal_a_given_b`: with
`val = a - b - lr * b_value[1]`, returns `-np.sum(val ** 2) / (4 * lr)`.
Only `b_value`'s gradient is read, as in the source. -/
def LangevinMCMC.proposal_a_given_b (s : MetropolisHastingsMCMC)
    (a b : Vec) (a_value b_value : OracleResult) : ℝ :=
  let val := vsub (vsub a b) (smul s.lr b_value.2);
  -sumSq val / (4 * s.lr)

/-- `LangevinMCMC.compute_alpha`: the symmetric potential ratio times the
asymmetric proposal-density correction, capped at 1. -/
def LangevinMCMC.compute_alpha (s : MetropolisHastingsMCMC)
    (w : Vec) (w_value : OracleResult) : ℝ :=
  let symmetric_part := Real.exp (w_value.1 - s.current_value.1)
  let assymetric_part := Real.exp
    (LangevinMCMC.proposal_a_given_b s s.current w s.current_value w_value -
     LangevinMCMC.proposal_a_given_b s w s.current w_value s.current_value)
  min 1 (symmetric_part * assymetric_part)

/-- `update` with `LangevinMCMC`'s overridden methods (the loop itself is
inherited from `MetropolisHastingsMCMC`). -/
def LangevinMCMC.update (s : MetropolisHastingsMCMC) (rands : List Rand) :
    Option (MetropolisHastingsMCMC × ℝ) :=
  mcmcUpdate LangevinMCMC.transition LangevinMCMC.compute_alpha s rands

/-- State of `HamiltonyanMCMC` (the source's spelling): the
Metropolis-Hastings fields plus the integration length `L`. -/
structure HamiltonyanMCMC where
  oracle : Oracle
  lr : ℝ
  lr_decay : ℝ
  number_of_steps : ℕ
  current : Vec
  current_value : OracleResult
  L : ℕ

/-- `HamiltonyanMCMC.__init__` followed by `initialize(start)`. -/
def HamiltonyanMCMC.make (oracle : Oracle) (lr lr_decay : ℝ) (L : ℕ) (start : Vec) :
    HamiltonyanMCMC :=
  { oracle := oracle, lr := lr, lr_decay := lr_decay, number_of_steps := 0,
    current := start, current_value := oracle start, L := L }

/-- One iteration of the `for i in range(L)` leapfrog loop of
`HamiltonyanMCMC.transition`: `q += lr * p`, and unless `i == L - 1`,
`p += lr * oracle(q)[1]`. -/
def leapfrogIter (oracle : Oracle) (lr : ℝ) (L : ℕ) (qp : Vec × Vec) (i : ℕ) :
    Vec × Vec :=
  let q := vadd qp.1 (smul lr qp.2)
  if i ≠ L - 1 then (q, vadd qp.2 (smul lr (oracle q).2))
  else (q, qp.2)

/-- The whole `for i in range(L)` loop. -/
def leapfrogRun (oracle : Oracle) (lr : ℝ) (L : ℕ) (qp : Vec × Vec) : Vec × Vec :=
  (List.range L).foldl (leapfrogIter oracle lr L) qp

/-- `HamiltonyanMCMC.transition`, with the external momentum draw `p0`
(`np.random.normal(size=current.shape)`) explicit.  The method writes no
field of `self` — it works on the copy `q` and local momenta — so the
embedding returns the receiver unchanged alongside `(q, new_value, alpha)`. -/
def HamiltonyanMCMC.transition (s : HamiltonyanMCMC) (p0 : Vec) :
    HamiltonyanMCMC × Vec × OracleResult × ℝ :=
  let q := s.current
  let current_p := p0
  let p := vadd p0 (sdiv (smul s.lr s.current_value.2) 2)
  let qp := leapfrogRun s.oracle s.lr s.L (q, p)
  let new_value := s.oracle qp.1
  let pf := vadd qp.2 (sdiv (smul s.lr new_value.2) 2)
  let proposed_u := -new_value.1
  let current_u := -s.current_value.1
  let current_k := sumSq current_p / 2
  let proposed_k := sumSq pf / 2
  let alpha := Real.exp (current_u - proposed_u + current_k - proposed_k)
  (s, qp.1, new_value, alpha)

/-- One iteration of the `while not accepted` body of
`HamiltonyanMCMC.update`: run `transition`, decay the working `lr`,
compare `alpha > th`, bump the step counter on every attempt. -/
def hmcAttempt (s : HamiltonyanMCMC) (p0 : Vec) (th : ℝ) : HamiltonyanMCMC × Bool :=
  let r := HamiltonyanMCMC.transition s p0
  let s0 := r.1
  let w := r.2.1
  let w_value := r.2.2.1
  let alpha := r.2.2.2
  let s1 : HamiltonyanMCMC :=
    { s0 with lr := s0.lr * s0.lr_decay, number_of_steps := s0.number_of_steps + 1 }
  if alpha > th then ({ s1 with current := w, current_value := w_value }, true)
  else (s1, false)

/-- The `while not accepted` loop of `HamiltonyanMCMC.update`. -/
def hmcUpdateLoop : HamiltonyanMCMC → List Rand → Option HamiltonyanMCMC
  | _, [] => none
  | s, r :: rest =>
    let a := hmcAttempt s r.1 r.2
    if a.2 then some a.1 else hmcUpdateLoop a.1 rest

/-- `HamiltonyanMCMC.update`: save `old_lr`, run the retry loop, restore
`lr`, return the committed log-value alongside the final state. -/
def hmcUpdate (s : HamiltonyanMCMC) (rands : List Rand) :
    Option (HamiltonyanMCMC × ℝ) :=
  let old_lr := s.lr
  match hmcUpdateLoop s rands with
  | none => none
  | some s1 => some ({ s1 with lr := old_lr }, s1.current_value.1)

/-! Spec-side definitions, written from the specification's wording, to be
compared with the embedded source code above. -/

/-- One combined leapfrog step as the specification describes it: a
full-step position update `q += stepsize * p` followed by a full-step
momentum update using the gradient at the new `q`. -/
def leapfrogSpecStep (oracle : Oracle) (lr : ℝ) (qp : Vec × Vec) : Vec × Vec :=
  let q := vadd qp.1 (smul lr qp.2)
  (q, vadd qp.2 (smul lr (oracle q).2))

/-- The integrator as the specification describes it: exactly `L - 1`
combined position-and-momentum steps, then one final full-step position
update with the momentum update skipped. -/
def leapfrogSpecRun (oracle : Oracle) (lr : ℝ) (L : ℕ) (qp : Vec × Vec) : Vec × Vec :=
  let qp1 := (leapfrogSpecStep oracle lr)^[L - 1] qp
  (vadd qp1.1 (smul lr qp1.2), qp1.2)

/-- `transition` as the specification describes it: one initial half-step
momentum update `p += stepsize/2 * current_gradient`, the `L`-position /
`L-1`-momentum integrator, one oracle evaluation at the final `q`, one
final half-step momentum update `p += stepsize/2 * new_gradient`, and the
acceptance ratio `exp(current_u - proposed_u + current_k - proposed_k)`
with `current_k` taken over the unperturbed initial momentum — not capped
at 1. -/
def HamiltonyanMCMC.transitionSpec (s : HamiltonyanMCMC) (p0 : Vec) :
    Vec × OracleResult × ℝ :=
  let p := vadd p0 (smul (s.lr / 2) s.current_value.2)
  let qp := leapfrogSpecRun s.oracle s.lr s.L (s.current, p)
  let new_value := s.oracle qp.1
  let pf := vadd qp.2 (smul (s.lr / 2) new_value.2)
  let current_u := -s.current_value.1
  let proposed_u := -new_value.1
  let current_k := sumSq p0 / 2
  let proposed_k := sumSq pf / 2
  (qp.1, new_value, Real.exp (current_u - proposed_u + current_k - proposed_k))

/-- The Langevin acceptance ratio as the specification words it: the
symmetric potential-ratio term times the asymmetric proposal-density
correction, capped at 1. -/
def LangevinMCMC.acceptanceRatioSpec (s : MetropolisHastingsMCMC)
    (candidate : Vec) (candidate_value : OracleResult) : ℝ :=
  min 1 (Real.exp (candidate_value.1 - s.current_value.1) *
    Real.exp
      (LangevinMCMC.proposal_a_given_b s s.current candidate s.current_value candidate_value -
       LangevinMCMC.proposal_a_given_b s candidate s.current candidate_value s.current_value))

/-- The state reached after running the first `k` attempts of one
`update()` call, ignoring the exit test: used to track the working
stepsize across retries. -/
def attemptFold (T : MetropolisHastingsMCMC → Vec → Vec)
    (A : MetropolisHastingsMCMC → Vec → OracleResult → ℝ)
    (s : MetropolisHastingsMCMC) (rands : List Rand) : MetropolisHastingsMCMC :=
  rands.foldl (fun st r => (mcmcAttempt T A st r.1 r.2).1) s

/-! Concrete instances, used to evaluate the samplers on explicit inputs. -/

/-- A constant oracle over the empty (0-dimensional) state space:
log-value 0, empty gradient. -/
def oracle0 : Oracle := fun _ => (0, [])

/-- A Metropolis-Hastings sampler over `oracle0` with `lr = 1`,
`lr_decay = 1`, started at the empty vector. -/
def mh0 : MetropolisHastingsMCMC := MetropolisHastingsMCMC.make oracle0 1 1 []

/-- The state `mh0` reaches after one retry attempt (accepted or not):
only the step counter moves. -/
def mh0after : MetropolisHastingsMCMC :=
  { oracle := oracle0, lr := 1, lr_decay := 1, number_of_steps := 1,
    current := [], current_value := (0, []) }

/-- A Hamiltonian sampler over `oracle0` with `lr = 1`, `lr_decay = 1`,
`L = 1`, started at the empty vector. -/
def h0 : HamiltonyanMCMC := HamiltonyanMCMC.make oracle0 1 1 1 []

/-- The state `h0` reaches after one accepted attempt. -/
def h0after : HamiltonyanMCMC :=
  { oracle := oracle0, lr := 1, lr_decay := 1, number_of_steps := 1,
    current := [], current_value := (0, []), L := 1 }

/-- A Hamiltonian sampler constructed with the non-positive stepsize
`-1`.  Its `transition` is plain arithmetic in the stepsize — unlike the
Metropolis-Hastings proposal, no external sampling call receives the
stepsize as a covariance — so no library error can interrupt it. -/
def hneg : HamiltonyanMCMC := HamiltonyanMCMC.make oracle0 (-1) 1 1 []

/-- The state `hneg` reaches after one accepted attempt. -/
def hnegafter : HamiltonyanMCMC :=
  { oracle := oracle0, lr := -1, lr_decay := 1, number_of_steps := 1,
    current := [], current_value := (0, []), L := 1 }

/-- A gradient-ascent instance over `oracle0`. -/
def ga0 : GradientAccent := GradientAccent.make oracle0 1 []

/-! Helper lemmas. -/

lemma foldl_const_iterate {α β : Type} (f : α → α) :
    ∀ (l : List β) (a : α), l.foldl (fun x _ => f x) a = f^[l.length] a
  | [], _ => rfl
  | _ :: t, a => by
      simp only [List.foldl_cons, List.length_cons, Function.iterate_succ_apply]
      exact foldl_const_iterate f t (f a)

/-- The source's index-tested leapfrog loop computes exactly the
specification's decomposition: `L - 1` combined steps, then a final
position-only step. -/
lemma leapfrogRun_eq_spec (oracle : Oracle) (lr : ℝ) (L : ℕ) (h : 1 ≤ L) :
    ∀ qp, leapfrogRun oracle lr L qp = leapfrogSpecRun oracle lr L qp := by
  obtain ⟨m, rfl⟩ : ∃ m, L = m + 1 := ⟨L - 1, (Nat.succ_pred_eq_of_pos h).symm⟩
  intro qp
  unfold leapfrogRun leapfrogSpecRun
  rw [List.range_succ, List.foldl_append]
  have h1 : (List.range m).foldl (leapfrogIter oracle lr (m + 1)) qp
      = (List.range m).foldl (fun x _ => leapfrogSpecStep oracle lr x) qp := by
    apply List.foldl_ext
    intro a b hb
    have hbm : b < m := List.mem_range.mp hb
    simp only [leapfrogIter, leapfrogSpecStep]
    rw [if_pos (by omega : b ≠ m + 1 - 1)]
  have h2 := foldl_const_iterate (leapfrogSpecStep oracle lr) (List.range m) qp
  rw [List.length_range] at h2
  rw [h1, h2]
  simp only [List.foldl_cons, List.foldl_nil, leapfrogIter, Nat.add_sub_cancel]
  rw [if_neg (by omega : ¬ m ≠ m)]

lemma sdiv_smul_half (c : ℝ) : ∀ v : Vec, sdiv (smul c v) 2 = smul (c / 2) v
  | [] => rfl
  | x :: t => by
      have ih := sdiv_smul_half c t
      simp only [smul, sdiv, List.map_cons, List.map_map] at ih ⊢
      rw [ih]
      congr 1
      ring

lemma vadd_smul_all_zero (c : ℝ) :
    ∀ (l m : Vec), m.length = l.length → (∀ x ∈ m, x = 0) → vadd l (smul c m) = l
  | [], _, _, _ => by simp [vadd]
  | _ :: _, [], hlen, _ => by simp at hlen
  | a :: l, b :: m, hlen, hz => by
      have hb : b = 0 := hz b (by simp)
      simp only [vadd, smul, List.map_cons, List.zipWith_cons_cons, hb, mul_zero, add_zero,
        List.cons.injEq, true_and]
      exact vadd_smul_all_zero c l m (by simpa using hlen) (fun x hx => hz x (by simp [hx]))

lemma mem_vsub_self (a : Vec) : ∀ x ∈ vsub a a, x = 0 := by
  induction a with
  | nil => simp [vsub]
  | cons h t ih =>
      intro x hx
      simp only [vsub, List.zipWith_cons_cons, List.mem_cons] at hx
      rcases hx with hx | hx
      · simp [hx]
      · exact ih x hx

lemma mem_smul_all_zero (c : ℝ) (m : Vec) (h : ∀ x ∈ m, x = 0) :
    ∀ x ∈ smul c m, x = 0 := by
  intro x hx
  simp only [smul, List.mem_map] at hx
  obtain ⟨y, hy, rfl⟩ := hx
  simp [h y hy]

lemma sumSq_vsub_zero :
    ∀ (l m : Vec), (∀ x ∈ l, x = 0) → (∀ x ∈ m, x = 0) → sumSq (vsub l m) = 0
  | [], _, _, _ => by simp [vsub, sumSq]
  | _ :: _, [], _, _ => by simp [vsub, sumSq]
  | a :: l, b :: m, hl, hm => by
      have ha : a = 0 := hl a (by simp)
      have hb : b = 0 := hm b (by simp)
      simp only [vsub, List.zipWith_cons_cons, sumSq, List.map_cons, List.sum_cons, ha, hb,
        sub_zero, ne_eq, OfNat.ofNat_ne_zero, not_false_eq_true, zero_pow, zero_add]
      exact sumSq_vsub_zero l m (fun x hx => hl x (by simp [hx])) (fun x hx => hm x (by simp [hx]))

lemma mcmcAttempt_lr (T : MetropolisHastingsMCMC → Vec → Vec)
    (A : MetropolisHastingsMCMC → Vec → OracleResult → ℝ)
    (s : MetropolisHastingsMCMC) (z : Vec) (th : ℝ) :
    ((mcmcAttempt T A s z th).1).lr = s.lr * s.lr_decay := by
  simp only [mcmcAttempt]
  split <;> rfl

lemma mcmcAttempt_decay (T : MetropolisHastingsMCMC → Vec → Vec)
    (A : MetropolisHastingsMCMC → Vec → OracleResult → ℝ)
    (s : MetropolisHastingsMCMC) (z : Vec) (th : ℝ) :
    ((mcmcAttempt T A s z th).1).lr_decay = s.lr_decay := by
  simp only [mcmcAttempt]
  split <;> rfl

lemma mcmcAttempt_steps (T : MetropolisHastingsMCMC → Vec → Vec)
    (A : MetropolisHastingsMCMC → Vec → OracleResult → ℝ)
    (s : MetropolisHastingsMCMC) (z : Vec) (th : ℝ) :
    ((mcmcAttempt T A s z th).1).number_of_steps = s.number_of_steps + 1 := by
  simp only [mcmcAttempt]
  split <;> rfl

lemma hmcAttempt_lr (s : HamiltonyanMCMC) (p0 : Vec) (th : ℝ) :
    ((hmcAttempt s p0 th).1).lr = s.lr * s.lr_decay := by
  simp only [hmcAttempt, HamiltonyanMCMC.transition]
  split <;> rfl

lemma hmcAttempt_steps (s : HamiltonyanMCMC) (p0 : Vec) (th : ℝ) :
    ((hmcAttempt s p0 th).1).number_of_steps = s.number_of_steps + 1 := by
  simp only [hmcAttempt, HamiltonyanMCMC.transition]
  split <;> rfl

lemma mcmcAttempt_accepted_iff (T : MetropolisHastingsMCMC → Vec → Vec)
    (A : MetropolisHastingsMCMC → Vec → OracleResult → ℝ)
    (s : MetropolisHastingsMCMC) (z : Vec) (th : ℝ) :
    (mcmcAttempt T A s z th).2 = true ↔ A s (T s z) (s.oracle (T s z)) > th := by
  simp only [mcmcAttempt]
  split_ifs with h <;> simp [h]

lemma mcmcAttempt_accepted_current (T : MetropolisHastingsMCMC → Vec → Vec)
    (A : MetropolisHastingsMCMC → Vec → OracleResult → ℝ)
    (s : MetropolisHastingsMCMC) (z : Vec) (th : ℝ)
    (h : (mcmcAttempt T A s z th).2 = true) :
    ((mcmcAttempt T A s z th).1).current = T s z := by
  simp only [mcmcAttempt] at h ⊢
  split_ifs at h ⊢
  rfl

lemma attemptFold_lr (T : MetropolisHastingsMCMC → Vec → Vec)
    (A : MetropolisHastingsMCMC → Vec → OracleResult → ℝ) :
    ∀ (rands : List Rand) (s : MetropolisHastingsMCMC),
      (attemptFold T A s rands).lr = s.lr * s.lr_decay ^ rands.length ∧
      (attemptFold T A s rands).lr_decay = s.lr_decay
  | [], s => by simp [attemptFold]
  | r :: t, s => by
      obtain ⟨h1, h2⟩ := attemptFold_lr T A t (mcmcAttempt T A s r.1 r.2).1
      have he : attemptFold T A s (r :: t) = attemptFold T A (mcmcAttempt T A s r.1 r.2).1 t :=
        rfl
      rw [he, h1, h2, mcmcAttempt_lr, mcmcAttempt_decay]
      constructor
      · rw [List.length_cons, pow_succ]
        ring
      · rfl

lemma mcmcUpdateLoop_steps (T : MetropolisHastingsMCMC → Vec → Vec)
    (A : MetropolisHastingsMCMC → Vec → OracleResult → ℝ) :
    ∀ (rands : List Rand) (s s1 : MetropolisHastingsMCMC),
      mcmcUpdateLoop T A s rands = some s1 →
      ∃ k, 1 ≤ k ∧ k ≤ rands.length ∧
        s1.number_of_steps = s.number_of_steps + k := by
  intro rands
  induction rands with
  | nil => intro s s1 h; simp [mcmcUpdateLoop] at h
  | cons r t ih =>
      intro s s1 h
      simp only [mcmcUpdateLoop] at h
      by_cases hacc : (mcmcAttempt T A s r.1 r.2).2 = true
      · rw [if_pos hacc] at h
        obtain rfl := Option.some.inj h
        exact ⟨1, le_refl 1, by simp, mcmcAttempt_steps T A s r.1 r.2⟩
      · rw [if_neg hacc] at h
        obtain ⟨k, hk1, hk2, hk3⟩ := ih _ _ h
        refine ⟨k + 1, by omega, by simp only [List.length_cons]; omega, ?_⟩
        rw [hk3, mcmcAttempt_steps]
        omega

lemma hmcUpdateLoop_steps :
    ∀ (rands : List Rand) (s s1 : HamiltonyanMCMC),
      hmcUpdateLoop s rands = some s1 →
      ∃ k, 1 ≤ k ∧ k ≤ rands.length ∧
        s1.number_of_steps = s.number_of_steps + k := by
  intro rands
  induction rands with
  | nil => intro s s1 h; simp [hmcUpdateLoop] at h
  | cons r t ih =>
      intro s s1 h
      simp only [hmcUpdateLoop] at h
      by_cases hacc : (hmcAttempt s r.1 r.2).2 = true
      · rw [if_pos hacc] at h
        obtain rfl := Option.some.inj h
        exact ⟨1, le_refl 1, by simp, hmcAttempt_steps s r.1 r.2⟩
      · rw [if_neg hacc] at h
        obtain ⟨k, hk1, hk2, hk3⟩ := ih _ _ h
        refine ⟨k + 1, by omega, by simp only [List.length_cons]; omega, ?_⟩
        rw [hk3, hmcAttempt_steps]
        omega

lemma mcmcUpdate_lr_restored (T : MetropolisHastingsMCMC → Vec → Vec)
    (A : MetropolisHastingsMCMC → Vec → OracleResult → ℝ)
    (s : MetropolisHastingsMCMC) (rands : List Rand)
    (s1 : MetropolisHastingsMCMC) (v : ℝ)
    (h : mcmcUpdate T A s rands = some (s1, v)) : s1.lr = s.lr := by
  rcases hl : mcmcUpdateLoop T A s rands with _ | s2
  · simp only [mcmcUpdate, hl] at h
    exact Option.noConfusion h
  · simp only [mcmcUpdate, hl] at h
    have h1 : s1 = { s2 with lr := s.lr } := (congrArg Prod.fst (Option.some.inj h)).symm
    rw [h1]

lemma hmcUpdate_lr_restored (s : HamiltonyanMCMC) (rands : List Rand)
    (s1 : HamiltonyanMCMC) (v : ℝ)
    (h : hmcUpdate s rands = some (s1, v)) : s1.lr = s.lr := by
  rcases hl : hmcUpdateLoop s rands with _ | s2
  · simp only [hmcUpdate, hl] at h
    exact Option.noConfusion h
  · simp only [hmcUpdate, hl] at h
    have h1 : s1 = { s2 with lr := s.lr } := (congrArg Prod.fst (Option.some.inj h)).symm
    rw [h1]

/-! Concrete evaluations, feeding the witnesses below. -/

lemma mh0_attempt_acc :
    mcmcAttempt MetropolisHastingsMCMC.transition MetropolisHastingsMCMC.compute_alpha mh0 [] 0
      = (mh0after, true) := by
  norm_num [mcmcAttempt, MetropolisHastingsMCMC.transition, MetropolisHastingsMCMC.compute_alpha,
    mh0, mh0after, MetropolisHastingsMCMC.make, oracle0, vadd, smul, Real.exp_zero]

lemma mh0_attempt_rej :
    mcmcAttempt MetropolisHastingsMCMC.transition MetropolisHastingsMCMC.compute_alpha mh0 [] 2
      = (mh0after, false) := by
  norm_num [mcmcAttempt, MetropolisHastingsMCMC.transition, MetropolisHastingsMCMC.compute_alpha,
    mh0, mh0after, MetropolisHastingsMCMC.make, oracle0, vadd, smul, Real.exp_zero]

lemma mh0_update_eval :
    MetropolisHastingsMCMC.update mh0 [([], 0)] = some (mh0after, 0) := by
  have hl : mcmcUpdateLoop MetropolisHastingsMCMC.transition MetropolisHastingsMCMC.compute_alpha
      mh0 [([], 0)] = some mh0after := by
    simp [mcmcUpdateLoop, mh0_attempt_acc]
  simp only [MetropolisHastingsMCMC.update, mcmcUpdate, hl]
  norm_num [mh0, mh0after, MetropolisHastingsMCMC.make, oracle0]

lemma rangeOne : List.range 1 = [0] := by decide

lemma h0_attempt_acc : hmcAttempt h0 [] 0 = (h0after, true) := by
  norm_num [hmcAttempt, HamiltonyanMCMC.transition, h0, h0after, HamiltonyanMCMC.make,
    oracle0, leapfrogRun, leapfrogIter, rangeOne, vadd, smul, sdiv, sumSq,
    Real.exp_zero]

lemma h0_update_eval : hmcUpdate h0 [([], 0)] = some (h0after, 0) := by
  have hl : hmcUpdateLoop h0 [([], 0)] = some h0after := by
    simp [hmcUpdateLoop, h0_attempt_acc]
  simp only [hmcUpdate, hl]
  norm_num [h0, h0after, HamiltonyanMCMC.make, oracle0]

lemma hneg_attempt_acc : hmcAttempt hneg [] 0 = (hnegafter, true) := by
  norm_num [hmcAttempt, HamiltonyanMCMC.transition, hneg, hnegafter, HamiltonyanMCMC.make,
    oracle0, leapfrogRun, leapfrogIter, rangeOne, vadd, smul, sdiv, sumSq,
    Real.exp_zero]

lemma hneg_update_eval : hmcUpdate hneg [([], 0)] = some (hnegafter, 0) := by
  have hl : hmcUpdateLoop hneg [([], 0)] = some hnegafter := by
    simp [hmcUpdateLoop, hneg_attempt_acc]
  simp only [hmcUpdate, hl]
  norm_num [hneg, hnegafter, HamiltonyanMCMC.make, oracle0]

/-! Claim theorems. -/

/-- Claim C1: for integration length `L ≥ 1`, `HamiltonyanMCMC.transition`
performs one initial half-step momentum update using the current gradient,
exactly `L` full-step position updates `q += stepsize * p` with exactly
`L - 1` intermediate full-step momentum updates using the gradient at the
new `q` (skipped on the last iteration), one oracle evaluation at the
final `q`, and one final half-step momentum update using the final
gradient; the acceptance ratio is
`exp(current_u - proposed_u + current_k - proposed_k)` over the unperturbed
initial momentum and the final momentum, not capped at 1 — i.e. the
transition coincides with `transitionSpec`, the computation the
specification describes. -/
theorem claim_C1 (s : HamiltonyanMCMC) (p0 : Vec) (h : 1 ≤ s.L) :
    (HamiltonyanMCMC.transition s p0).2 = HamiltonyanMCMC.transitionSpec s p0 := by
  simp only [HamiltonyanMCMC.transition, HamiltonyanMCMC.transitionSpec, sdiv_smul_half,
    leapfrogRun_eq_spec s.oracle s.lr s.L h]

/-- Witness for C1: the Hamiltonian sampler `h0` has `L = 1 ≥ 1` and its
transition at the empty momentum draw matches the specification's
computation. -/
theorem claim_C1_witness :
    1 ≤ h0.L ∧ (HamiltonyanMCMC.transition h0 []).2 = HamiltonyanMCMC.transitionSpec h0 [] :=
  ⟨by simp [h0, HamiltonyanMCMC.make], claim_C1 h0 [] (by simp [h0, HamiltonyanMCMC.make])⟩

/-- Claim C2: `MetropolisHastingsMCMC.compute_alpha` equals
`min(1, exp(candidate_log_value - current_log_value))`; it always lies in
`(0, 1]`, and equals exactly 1 whenever the candidate's log-value is at
least the current one. -/
theorem claim_C2 (s : MetropolisHastingsMCMC) (w : Vec) (wv : OracleResult) :
    MetropolisHastingsMCMC.compute_alpha s w wv
        = min 1 (Real.exp (wv.1 - s.current_value.1)) ∧
      0 < MetropolisHastingsMCMC.compute_alpha s w wv ∧
      MetropolisHastingsMCMC.compute_alpha s w wv ≤ 1 ∧
      (s.current_value.1 ≤ wv.1 → MetropolisHastingsMCMC.compute_alpha s w wv = 1) := by
  refine ⟨rfl, ?_, ?_, fun h => ?_⟩
  · exact lt_min zero_lt_one (Real.exp_pos _)
  · exact min_le_left _ _
  · exact min_eq_left (Real.one_le_exp_iff.mpr (by linarith))

/-- Witness for C2: with equal log-values (candidate ≥ current), the
acceptance ratio of `mh0` is exactly 1. -/
theorem claim_C2_witness :
    mh0.current_value.1 ≤ (0:ℝ) ∧
      MetropolisHastingsMCMC.compute_alpha mh0 [] (0, []) = 1 :=
  ⟨by simp [mh0, MetropolisHastingsMCMC.make, oracle0],
   (claim_C2 mh0 [] (0, [])).2.2.2 (by simp [mh0, MetropolisHastingsMCMC.make, oracle0])⟩

/-- Claim C3: the Langevin acceptance ratio equals the symmetric
potential-ratio term times the asymmetric proposal-density correction
`exp(transition_log_density(current, candidate) -
transition_log_density(candidate, current))`, capped at 1 — the
specification's formula `acceptanceRatioSpec`. -/
theorem claim_C3 (s : MetropolisHastingsMCMC) (w : Vec) (wv : OracleResult) :
    LangevinMCMC.compute_alpha s w wv = LangevinMCMC.acceptanceRatioSpec s w wv := rfl

/-- Claim C4: the Langevin proposal is
`current + stepsize * current_gradient + sqrt(2*stepsize) * noise`; the
transition log-density of proposing `a` at `b` is
`-sum((a - b - stepsize * b_gradient)^2) / (4*stepsize)`; and whenever the
gradient at a point is the zero vector, the self-transition log-density at
that point is 0. -/
theorem claim_C4 (s : MetropolisHastingsMCMC) (noise a b : Vec)
    (av bv : OracleResult) :
    LangevinMCMC.transition s noise
        = vadd (vadd s.current (smul s.lr s.current_value.2))
            (smul (Real.sqrt (2 * s.lr)) noise) ∧
      LangevinMCMC.proposal_a_given_b s a b av bv
        = -sumSq (vsub (vsub a b) (smul s.lr bv.2)) / (4 * s.lr) ∧
      ((∀ x ∈ bv.2, x = 0) → LangevinMCMC.proposal_a_given_b s a a av bv = 0) := by
  refine ⟨rfl, rfl, fun hz => ?_⟩
  have h1 : sumSq (vsub (vsub a a) (smul s.lr bv.2)) = 0 :=
    sumSq_vsub_zero _ _ (mem_vsub_self a) (mem_smul_all_zero s.lr bv.2 hz)
  show -sumSq (vsub (vsub a a) (smul s.lr bv.2)) / (4 * s.lr) = 0
  rw [h1, neg_zero, zero_div]

/-- Witness for C4: with the zero gradient `[0]`, the self-transition
log-density at `[1]` is 0. -/
theorem claim_C4_witness :
    (∀ x ∈ (((0:ℝ), [(0:ℝ)]) : OracleResult).2, x = 0) ∧
      LangevinMCMC.proposal_a_given_b mh0 [1] [1] (0, []) (0, [0]) = 0 :=
  ⟨by simp, (claim_C4 mh0 [] [1] [1] (0, []) (0, [0])).2.2 (by simp)⟩

/-- Claim C5: every terminating `update()` of a Metropolis-Hastings or
Langevin sampler (any `transition`/`compute_alpha` methods) and of the
Hamiltonian sampler leaves the stored stepsize equal to its value at call
entry, however many retry attempts happened and whatever the decay
factor. -/
theorem claim_C5 :
    (∀ (T : MetropolisHastingsMCMC → Vec → Vec)
        (A : MetropolisHastingsMCMC → Vec → OracleResult → ℝ)
        (s : MetropolisHastingsMCMC) (rands : List Rand)
        (s1 : MetropolisHastingsMCMC) (v : ℝ),
        mcmcUpdate T A s rands = some (s1, v) → s1.lr = s.lr) ∧
    (∀ (s : HamiltonyanMCMC) (rands : List Rand) (s1 : HamiltonyanMCMC) (v : ℝ),
        hmcUpdate s rands = some (s1, v) → s1.lr = s.lr) :=
  ⟨mcmcUpdate_lr_restored, hmcUpdate_lr_restored⟩

/-- Witness for C5: concrete terminating updates of `mh0` and `h0` keep
their stepsizes. -/
theorem claim_C5_witness :
    (MetropolisHastingsMCMC.update mh0 [([], 0)] = some (mh0after, 0) ∧
      mh0after.lr = mh0.lr) ∧
    (hmcUpdate h0 [([], 0)] = some (h0after, 0) ∧ h0after.lr = h0.lr) :=
  ⟨⟨mh0_update_eval,
    claim_C5.1 MetropolisHastingsMCMC.transition MetropolisHastingsMCMC.compute_alpha
      mh0 [([], 0)] mh0after 0 mh0_update_eval⟩,
   ⟨h0_update_eval, claim_C5.2 h0 [([], 0)] h0after 0 h0_update_eval⟩⟩

/-- Claim C6: within one `update()` call, each attempt decays the working
stepsize (whether or not it is the accepted one); the acceptance decision
and the committed candidate use the attempt's entry state — its undecayed
stepsize — so after `k` attempts the working stepsize is
`lr0 * decay^k`, and the proposal of attempt `k` (1-indexed) is built with
`lr0 * decay^(k-1)`; rejected attempts continue the loop from the decayed
state. -/
theorem claim_C6 :
    (∀ (T : MetropolisHastingsMCMC → Vec → Vec)
        (A : MetropolisHastingsMCMC → Vec → OracleResult → ℝ)
        (s : MetropolisHastingsMCMC) (z : Vec) (th : ℝ),
        ((mcmcAttempt T A s z th).1).lr = s.lr * s.lr_decay ∧
        ((mcmcAttempt T A s z th).2 = true ↔ A s (T s z) (s.oracle (T s z)) > th) ∧
        ((mcmcAttempt T A s z th).2 = true →
          ((mcmcAttempt T A s z th).1).current = T s z)) ∧
    (∀ (T : MetropolisHastingsMCMC → Vec → Vec)
        (A : MetropolisHastingsMCMC → Vec → OracleResult → ℝ)
        (s : MetropolisHastingsMCMC) (rands : List Rand),
        (attemptFold T A s rands).lr = s.lr * s.lr_decay ^ rands.length) ∧
    (∀ (T : MetropolisHastingsMCMC → Vec → Vec)
        (A : MetropolisHastingsMCMC → Vec → OracleResult → ℝ)
        (s : MetropolisHastingsMCMC) (r : Rand) (rest : List Rand),
        (mcmcAttempt T A s r.1 r.2).2 = false →
        mcmcUpdateLoop T A s (r :: rest)
          = mcmcUpdateLoop T A (mcmcAttempt T A s r.1 r.2).1 rest) := by
  refine ⟨fun T A s z th => ⟨mcmcAttempt_lr T A s z th, mcmcAttempt_accepted_iff T A s z th,
      mcmcAttempt_accepted_current T A s z th⟩,
    fun T A s rands => (attemptFold_lr T A rands s).1,
    fun T A s r rest h => ?_⟩
  simp only [mcmcUpdateLoop, h, Bool.false_eq_true, if_false]

/-- Witness for C6: an accepted attempt of `mh0` commits the proposal
built from the entry state, and a rejected attempt of `mh0` continues the
loop from the decayed state. -/
theorem claim_C6_witness :
    ((mcmcAttempt MetropolisHastingsMCMC.transition MetropolisHastingsMCMC.compute_alpha
        mh0 [] 0).2 = true ∧
      ((mcmcAttempt MetropolisHastingsMCMC.transition MetropolisHastingsMCMC.compute_alpha
        mh0 [] 0).1).current = MetropolisHastingsMCMC.transition mh0 []) ∧
    ((mcmcAttempt MetropolisHastingsMCMC.transition MetropolisHastingsMCMC.compute_alpha
        mh0 [] 2).2 = false ∧
      mcmcUpdateLoop MetropolisHastingsMCMC.transition MetropolisHastingsMCMC.compute_alpha
          mh0 [([], 2), ([], 0)]
        = mcmcUpdateLoop MetropolisHastingsMCMC.transition MetropolisHastingsMCMC.compute_alpha
            ((mcmcAttempt MetropolisHastingsMCMC.transition MetropolisHastingsMCMC.compute_alpha
              mh0 [] 2).1) [([], 0)]) :=
  ⟨⟨by rw [mh0_attempt_acc],
    (claim_C6.1 MetropolisHastingsMCMC.transition MetropolisHastingsMCMC.compute_alpha
      mh0 [] 0).2.2 (by rw [mh0_attempt_acc])⟩,
   ⟨by rw [mh0_attempt_rej],
    claim_C6.2.2 MetropolisHastingsMCMC.transition MetropolisHastingsMCMC.compute_alpha
      mh0 ([], 2) [([], 0)] (by rw [mh0_attempt_rej])⟩⟩

/-- Claim C7: the step counter only grows after initialization: every
`GradientAccent.update` adds exactly 1; every retry attempt of the
MCMC-family loops adds exactly 1; and every terminating MCMC-family
`update()` adds exactly one per consumed attempt, hence at least 1. -/
theorem claim_C7 :
    (∀ g : GradientAccent,
        ((GradientAccent.update g).1).number_of_steps = g.number_of_steps + 1) ∧
    (∀ (T : MetropolisHastingsMCMC → Vec → Vec)
        (A : MetropolisHastingsMCMC → Vec → OracleResult → ℝ)
        (s : MetropolisHastingsMCMC) (z : Vec) (th : ℝ),
        ((mcmcAttempt T A s z th).1).number_of_steps = s.number_of_steps + 1) ∧
    (∀ (s : HamiltonyanMCMC) (p0 : Vec) (th : ℝ),
        ((hmcAttempt s p0 th).1).number_of_steps = s.number_of_steps + 1) ∧
    (∀ (T : MetropolisHastingsMCMC → Vec → Vec)
        (A : MetropolisHastingsMCMC → Vec → OracleResult → ℝ)
        (s : MetropolisHastingsMCMC) (rands : List Rand)
        (s1 : MetropolisHastingsMCMC) (v : ℝ),
        mcmcUpdate T A s rands = some (s1, v) →
        ∃ k, 1 ≤ k ∧ k ≤ rands.length ∧
          s1.number_of_steps = s.number_of_steps + k) ∧
    (∀ (s : HamiltonyanMCMC) (rands : List Rand) (s1 : HamiltonyanMCMC) (v : ℝ),
        hmcUpdate s rands = some (s1, v) →
        ∃ k, 1 ≤ k ∧ k ≤ rands.length ∧
          s1.number_of_steps = s.number_of_steps + k) := by
  refine ⟨fun g => rfl, mcmcAttempt_steps, hmcAttempt_steps, ?_, ?_⟩
  · intro T A s rands s1 v h
    rcases hl : mcmcUpdateLoop T A s rands with _ | s2
    · simp only [mcmcUpdate, hl] at h
      exact Option.noConfusion h
    · obtain ⟨k, hk1, hk2, hk3⟩ := mcmcUpdateLoop_steps T A rands s s2 hl
      simp only [mcmcUpdate, hl] at h
      have h1 : s1 = { s2 with lr := s.lr } := (congrArg Prod.fst (Option.some.inj h)).symm
      exact ⟨k, hk1, hk2, by rw [h1]; exact hk3⟩
  · intro s rands s1 v h
    rcases hl : hmcUpdateLoop s rands with _ | s2
    · simp only [hmcUpdate, hl] at h
      exact Option.noConfusion h
    · obtain ⟨k, hk1, hk2, hk3⟩ := hmcUpdateLoop_steps rands s s2 hl
      simp only [hmcUpdate, hl] at h
      have h1 : s1 = { s2 with lr := s.lr } := (congrArg Prod.fst (Option.some.inj h)).symm
      exact ⟨k, hk1, hk2, by rw [h1]; exact hk3⟩

/-- Witness for C7: the concrete terminating updates of `mh0` and `h0`
consume one attempt each and add one step. -/
theorem claim_C7_witness :
    (MetropolisHastingsMCMC.update mh0 [([], 0)] = some (mh0after, 0) ∧
      ∃ k, 1 ≤ k ∧ k ≤ ([(([] : Vec), (0:ℝ))] : List Rand).length ∧
        mh0after.number_of_steps = mh0.number_of_steps + k) ∧
    (hmcUpdate h0 [([], 0)] = some (h0after, 0) ∧
      ∃ k, 1 ≤ k ∧ k ≤ ([(([] : Vec), (0:ℝ))] : List Rand).length ∧
        h0after.number_of_steps = h0.number_of_steps + k) :=
  ⟨⟨mh0_update_eval,
    claim_C7.2.2.2.1 MetropolisHastingsMCMC.transition MetropolisHastingsMCMC.compute_alpha
      mh0 [([], 0)] mh0after 0 mh0_update_eval⟩,
   ⟨h0_update_eval, claim_C7.2.2.2.2 h0 [([], 0)] h0after 0 h0_update_eval⟩⟩

/-- Claim C8: `GradientAccent.update` evaluates the oracle at the current
point, moves `current` by `stepsize * gradient`, adds exactly 1 to the
step counter, and returns the log-value from before the move; with a zero
gradient (of the current point's dimension) the current point is
unchanged. -/
theorem claim_C8 (g : GradientAccent) :
    (GradientAccent.update g).2 = (g.oracle g.current).1 ∧
    ((GradientAccent.update g).1).current
        = vadd g.current (smul g.lr (g.oracle g.current).2) ∧
    ((GradientAccent.update g).1).number_of_steps = g.number_of_steps + 1 ∧
    (((g.oracle g.current).2.length = g.current.length ∧
        ∀ x ∈ (g.oracle g.current).2, x = 0) →
      ((GradientAccent.update g).1).current = g.current) := by
  refine ⟨rfl, rfl, rfl, fun h => ?_⟩
  show vadd g.current (smul g.lr (g.oracle g.current).2) = g.current
  exact vadd_smul_all_zero g.lr g.current (g.oracle g.current).2 h.1 h.2

/-- Witness for C8: `ga0` sits where the gradient is zero, and `update`
leaves its current point unchanged. -/
theorem claim_C8_witness :
    ((ga0.oracle ga0.current).2.length = ga0.current.length ∧
      ∀ x ∈ (ga0.oracle ga0.current).2, x = 0) ∧
    ((GradientAccent.update ga0).1).current = ga0.current :=
  ⟨⟨rfl, by simp [ga0, GradientAccent.make, oracle0]⟩,
   (claim_C8 ga0).2.2.2 ⟨rfl, by simp [ga0, GradientAccent.make, oracle0]⟩⟩

/-- Counterexample to C9: the Hamiltonian sampler constructed with
stepsize `-1 ≤ 0` surfaces no error — construction succeeds and stores
`-1` without validation, and `update` silently completes the numeric
computation (whose only use of the stepsize is plain arithmetic) and
returns a value, instead of failing fast. -/
theorem claim_C9_counterexample :
    hneg.lr = -1 ∧ hneg.lr ≤ 0 ∧ hmcUpdate hneg [([], 0)] = some (hnegafter, 0) :=
  ⟨rfl, by norm_num [hneg, HamiltonyanMCMC.make], hneg_update_eval⟩

/-- Claim C9 as amended: the Hamiltonian sampler does not fail fast on a
non-positive stepsize — construction performs no validation and stores
it, and a retry attempt of the update loop silently continues the numeric
computation with it (decaying it and counting its step), surfacing no
error.  (The Metropolis-Hastings base sampler does see an error at the
proposal draw, but from the external sampling library's covariance check,
not from any fail-fast validation in this code.) -/
theorem claim_C9_amended (oracle : Oracle) (lr lr_decay : ℝ) (L : ℕ) (start : Vec)
    (p0 : Vec) (th : ℝ) (h : lr ≤ 0) :
    (HamiltonyanMCMC.make oracle lr lr_decay L start).lr = lr ∧
    ((hmcAttempt (HamiltonyanMCMC.make oracle lr lr_decay L start) p0 th).1).lr
        = lr * lr_decay ∧
    ((hmcAttempt (HamiltonyanMCMC.make oracle lr lr_decay L start) p0 th).1).number_of_steps
        = 1 := by
  refine ⟨rfl, ?_, ?_⟩
  · rw [hmcAttempt_lr]
    rfl
  · rw [hmcAttempt_steps]
    rfl

/-- Witness for C9 (amended): at stepsize `-1`. -/
theorem claim_C9_witness :
    ((-1:ℝ) ≤ 0) ∧
    ((HamiltonyanMCMC.make oracle0 (-1) 1 1 []).lr = -1 ∧
      ((hmcAttempt (HamiltonyanMCMC.make oracle0 (-1) 1 1 []) [] 0).1).lr = -1 * 1 ∧
      ((hmcAttempt (HamiltonyanMCMC.make oracle0 (-1) 1 1 []) [] 0).1).number_of_steps = 1) :=
  ⟨by norm_num, claim_C9_amended oracle0 (-1) 1 1 [] [] 0 (by norm_num)⟩

/-- Claim C10: `HamiltonyanMCMC.transition` leaves every field of the
sampler unchanged — it works on a copy of the current position and on
fresh momenta, writing no field of `self`. -/
theorem claim_C10 (s : HamiltonyanMCMC) (p0 : Vec) :
    ((HamiltonyanMCMC.transition s p0).1).current = s.current ∧
    ((HamiltonyanMCMC.transition s p0).1).current_value = s.current_value ∧
    ((HamiltonyanMCMC.transition s p0).1).lr = s.lr ∧
    ((HamiltonyanMCMC.transition s p0).1).lr_decay = s.lr_decay ∧
    ((HamiltonyanMCMC.transition s p0).1).L = s.L ∧
    ((HamiltonyanMCMC.transition s p0).1).number_of_steps = s.number_of_steps :=
  ⟨rfl, rfl, rfl, rfl, rfl, rfl⟩

end Optimizers
